import Mathlib

/-!
Shallow embedding of the clustering-app analysis pipeline
(`src/utils/analysis.ts`): dimension ranking by pairwise Welch t-tests,
column standardization, K-means delegation, SVD-based PCA projection, and
result assembly.  External libraries (`@stdlib/stats-ttest`, `ml-kmeans`,
the `ml-matrix` SVD) are modelled as abstract function parameters; JS
number arithmetic is idealized over a linear ordered field (`ℚ` for
executable witnesses, `ℝ` for the full pipeline, where `Math.sqrt`
becomes `Real.sqrt`).
-/

namespace ClusteringApp

variable {K : Type} [LinearOrderedField K]

/-- One scored embedding dimension: `{dimension, pValue, statistic}`. -/
structure DimStat (K : Type) where
  dimension : ℕ
  pValue : K
  statistic : K
deriving DecidableEq

/-- `performTTest` from `analysis.ts`: groups with fewer than 2 values get the
placeholder `(pValue 1, statistic 0)`; otherwise the external Welch t-test
library `tt` is consulted. -/
def performTTest (tt : List K → List K → K × K) (group1 group2 : List K) : K × K :=
  if group1.length < 2 ∨ group2.length < 2 then (1, 0) else tt group1 group2

/-- JS object lookup `labels[id]` on the label map (keys are unique). -/
def lookupLabel (labels : List (String × String)) (id : String) : Option String :=
  (labels.find? (fun p => p.1 == id)).map Prod.snd

/-- The label the code actually uses: `const label = labels[id]; if (label) ...`
treats a missing key and the (falsy) empty string alike as unlabeled. -/
def labelOf (labels : List (String × String)) (id : String) : Option String :=
  match lookupLabel labels id with
  | some l => if l == "" then none else some l
  | none => none

/-- Insert row index `i` into the group named `l`, creating the group at the
end on first occurrence (JS object key insertion order). -/
def addToGroups (gs : List (String × List ℕ)) (l : String) (i : ℕ) :
    List (String × List ℕ) :=
  if gs.any (fun p => p.1 == l) then
    gs.map (fun p => if p.1 == l then (p.1, p.2 ++ [i]) else p)
  else gs ++ [(l, [i])]

/-- `labeledGroups` of `selectDiscriminativeDimensions`: row indices grouped by
label value, in first-occurrence order. -/
def groupsOf (labels : List (String × String)) (identifiers : List String) :
    List (String × List ℕ) :=
  identifiers.enum.foldl
    (fun gs p =>
      match labelOf labels p.2 with
      | some l => addToGroups gs l p.1
      | none => gs) []

/-- Column `dim` of the embedding matrix restricted to the rows `indices`. -/
def groupValues (embeddings : List (List K)) (indices : List ℕ) (dim : ℕ) : List K :=
  indices.map (fun idx => (embeddings.getD idx []).getD dim 0)

/-- The t-test results of all unordered group pairs for dimension `dim`, in the
code's increasing `(i, j)` enumeration order
(`for i in [0, n-1), for j in [i+1, n)`). -/
def pairResults (tt : List K → List K → K × K) (embeddings : List (List K))
    (groups : List (String × List ℕ)) (dim : ℕ) : List (K × K) :=
  (List.range (groups.length - 1)).flatMap (fun i =>
    ((List.range groups.length).drop (i + 1)).map (fun j =>
      performTTest tt
        (groupValues embeddings (groups.getD i ("", [])).2 dim)
        (groupValues embeddings (groups.getD j ("", [])).2 dim)))

/-- One step of the per-dimension minimum-p-value scan:
`if (testResult.pValue < minPValue) { minPValue = ..; maxStatistic = |..| }`. -/
def scoreStep (acc : K × K) (r : K × K) : K × K :=
  if r.1 < acc.1 then (r.1, |r.2|) else acc

/-- The per-dimension scan over all pair results, started at
`minPValue = 1, maxStatistic = 0`. -/
def scoreFold (ps : List (K × K)) : K × K := ps.foldl scoreStep (1, 0)

/-- `dimensionStats` before sorting: one `DimStat` per dimension
`0 ≤ dim < embeddings[0].length`. -/
def dimensionStatsAll (tt : List K → List K → K × K) (embeddings : List (List K))
    (labels : List (String × String)) (identifiers : List String) : List (DimStat K) :=
  (List.range embeddings.headI.length).map (fun dim =>
    let s := scoreFold (pairResults tt embeddings (groupsOf labels identifiers) dim)
    ⟨dim, s.1, s.2⟩)

/-- The sort comparison `(a, b) => a.pValue - b.pValue` of the stable JS
`Array.prototype.sort`, as a boolean "less or equal" on p-values. -/
def statLE (a b : DimStat K) : Bool := decide (a.pValue ≤ b.pValue)

/-- `selectDiscriminativeDimensions` from `analysis.ts`: group the labeled rows,
reject fewer than 2 groups, score every dimension, stable-sort ascending by
p-value and keep the first `numDimensions` entries. -/
def selectDiscriminativeDimensions (tt : List K → List K → K × K)
    (embeddings : List (List K)) (labels : List (String × String))
    (identifiers : List String) (numDimensions : ℕ) :
    Except String (List ℕ × List (DimStat K)) :=
  let groups := groupsOf labels identifiers
  if groups.length < 2 then
    Except.error "Need at least 2 labeled groups for statistical analysis"
  else
    let stats := dimensionStatsAll tt embeddings labels identifiers
    let sorted := stats.mergeSort statLE
    let sel := sorted.take numDimensions
    Except.ok (sel.map DimStat.dimension, sel)

/-- The ranked selection kept by `selectDiscriminativeDimensions`: the stable
sort of all dimension stats by ascending p-value, truncated to the first
`numDimensions` entries (`dimensionStats.sort(...).slice(0, numDimensions)`). -/
def rankedStats (tt : List K → List K → K × K) (embeddings : List (List K))
    (labels : List (String × String)) (identifiers : List String)
    (numDimensions : ℕ) : List (DimStat K) :=
  ((dimensionStatsAll tt embeddings labels identifiers).mergeSort statLE).take numDimensions

instance {ε α : Type} [DecidableEq ε] [DecidableEq α] : DecidableEq (Except ε α) :=
  fun x y =>
    match x, y with
    | .error e, .error f =>
      if h : e = f then isTrue (by rw [h]) else isFalse (fun hc => h (Except.error.inj hc))
    | .error _, .ok _ => isFalse (fun hc => Except.noConfusion hc)
    | .ok _, .error _ => isFalse (fun hc => Except.noConfusion hc)
    | .ok a, .ok b =>
      if h : a = b then isTrue (by rw [h]) else isFalse (fun hc => h (Except.ok.inj hc))

/-- Column `c` of a row-major matrix. -/
def colOf (m : List (List K)) (c : ℕ) : List K := m.map (fun row => row.getD c 0)

/-- `matrix.mean('column')` of `ml-matrix`: column sum over row count. -/
def colMean (m : List (List K)) (c : ℕ) : K := (colOf m c).sum / (m.length : K)

/-- The bespoke standard deviation of `performClustering`:
`Math.sqrt(sum((x - mean)^2) / (rows - 1))` (Bessel's correction). -/
noncomputable def colStd (m : List (List ℝ)) (c : ℕ) : ℝ :=
  Real.sqrt ((((colOf m c).map (fun v => (v - colMean m c) * (v - colMean m c))).sum) /
    ((m.length : ℝ) - 1))

/-- The standardization loop of `performClustering`: a column is z-scored only
when its standard deviation is positive, otherwise left as-is. -/
noncomputable def standardizeMatrix (m : List (List ℝ)) : List (List ℝ) :=
  m.map (fun row => row.enum.map (fun p =>
    if 0 < colStd m p.1 then (p.2 - colMean m p.1) / colStd m p.1 else p.2))

/-- The `means` array returned by `performClustering`. -/
def colMeans (m : List (List K)) : List K :=
  (List.range m.headI.length).map (colMean m)

/-- The `stds` array returned by `performClustering`. -/
noncomputable def colStds (m : List (List ℝ)) : List ℝ :=
  (List.range m.headI.length).map (colStd m)

/-- Result record of `performClustering`. -/
structure ClusteringResult where
  clusters : List ℕ
  centroids : List (List ℝ)
  standardizedData : List (List ℝ)
  means : List ℝ
  stds : List ℝ

/-- `reducedEmbeddings`: the selected columns, in the given order. -/
def reducedEmbeddings (embeddings : List (List K)) (selectedDimensions : List ℕ) :
    List (List K) :=
  embeddings.map (fun e => selectedDimensions.map (fun d => e.getD d 0))

/-- `performClustering` from `analysis.ts`, with the `ml-kmeans` call abstracted
as `km`.  Note there is no validation of `numClusters` anywhere: the value is
forwarded to the K-means routine unchanged. -/
noncomputable def performClustering (km : List (List ℝ) → ℕ → List ℕ × List (List ℝ))
    (embeddings : List (List ℝ)) (selectedDimensions : List ℕ) (numClusters : ℕ) :
    ClusteringResult :=
  let reduced := reducedEmbeddings embeddings selectedDimensions
  let standardized := standardizeMatrix reduced
  let kr := km standardized numClusters
  ⟨kr.1, kr.2, standardized, colMeans reduced, colStds reduced⟩

/-- Result record of `performPCA`: `projectedData` rows are `[x, y]` pairs, and
the `totalVariance` field is what the code returns under that name (the sum of
the first two explained-variance ratios). -/
structure PCAResult (K : Type) where
  projectedData : List (List K)
  explainedVariance : List K
  totalVariance : K
deriving DecidableEq

/-- The centering loop of `performPCA`: subtract each column's mean. -/
def centerMatrix (m : List (List K)) : List (List K) :=
  m.map (fun row => row.enum.map (fun p => p.2 - colMean m p.1))

/-- `eigenvalues = singularValues.map(sv => sv * sv / (matrix.rows - 1))`, for
an abstract SVD `svd` returning (left singular vectors as rows, diagonal). -/
def pcaEigenvalues (svd : List (List K) → List (List K) × List K)
    (data : List (List K)) : List K :=
  ((svd (centerMatrix data)).2).map (fun sv => sv * sv / ((data.length : K) - 1))

/-- `totalVariance = eigenvalues.reduce((sum, val) => sum + val, 0)`. -/
def pcaTotalVariance (svd : List (List K) → List (List K) × List K)
    (data : List (List K)) : K :=
  (pcaEigenvalues svd data).sum

/-- `performPCA` from `analysis.ts` with the `ml-matrix` SVD abstracted as
`svd : matrix → (U as rows, diagonal of Σ)`.  Degenerate branches first; the
main path projects row `i` to the `i`-th entries of the first two (raw,
unit-norm) left singular vector columns of the centered matrix. -/
def performPCA (svd : List (List K) → List (List K) × List K)
    (data : List (List K)) : PCAResult K :=
  if data.length = 0 ∨ data.headI.length = 0 then
    ⟨data.enum.map (fun p => [(p.1 : K), 0]), [1, 0], 1⟩
  else if data.headI.length < 2 then
    ⟨data.enum.map (fun p => [p.2.getD 0 0, (p.1 : K) * (1 / 10)]), [1, 0], 1⟩
  else
    let u := (svd (centerMatrix data)).1
    let pc1 := u.map (fun r => r.getD 0 0)
    let pc2 := u.map (fun r => r.getD 1 0)
    let projected := pc1.enum.map (fun p => [p.2, pc2.getD p.1 0])
    let eigenvalues := pcaEigenvalues svd data
    let totalVariance := eigenvalues.sum
    let explainedVariance :=
      [eigenvalues.getD 0 0 / totalVariance, eigenvalues.getD 1 0 / totalVariance]
    ⟨projected, explainedVariance,
      explainedVariance.getD 0 0 + explainedVariance.getD 1 0⟩

/-- One entry of the per-cluster membership array of the result. -/
structure ClusterGroup where
  id : ℕ
  items : List (String × Option String)
  size : ℕ
deriving DecidableEq

/-- The `clusters` assembly of `performAnalysis`: for each cluster index the
rows assigned to it, in row order, as (identifier, label-or-null) pairs. -/
def assembleClusters (labels : List (String × String)) (identifiers : List String)
    (assignments : List ℕ) (numClusters : ℕ) : List ClusterGroup :=
  (List.range numClusters).map (fun clusterIndex =>
    let clusterItems :=
      (identifiers.enum.filter (fun p => assignments[p.1]? == some clusterIndex)).map
        (fun p => (p.2, labelOf labels p.2))
    ⟨clusterIndex, clusterItems, clusterItems.length⟩)

/-- One visualization point record of the assembled result. -/
structure PointRecord where
  x : ℝ
  y : ℝ
  identifier : String
  cluster : Option ℕ
  label : Option String

/-- The assembled response of `performAnalysis`. -/
structure AnalysisResult where
  clusterAssignments : List ℕ
  points : List PointRecord
  explainedVariance : List ℝ
  totalVarianceExplained : ℝ
  selectedDimensions : List ℕ
  dimensionStats : List (ℕ × ℝ × String)
  numClusters : ℕ
  numDimensions : ℕ
  totalSamples : ℕ
  labeledSamples : ℕ
  clusters : List ClusterGroup

/-- `performAnalysis` from `analysis.ts`: rank dimensions, cluster on the
standardized reduced matrix, project it with PCA, and assemble the result.  A
`ValidationError` thrown by the Ranker propagates as `Except.error`. -/
noncomputable def performAnalysis (tt : List ℝ → List ℝ → ℝ × ℝ)
    (km : List (List ℝ) → ℕ → List ℕ × List (List ℝ))
    (svd : List (List ℝ) → List (List ℝ) × List ℝ)
    (embeddings : List (List ℝ)) (labels : List (String × String))
    (identifiers : List String) (numDimensions numClusters : ℕ) :
    Except String AnalysisResult :=
  match selectDiscriminativeDimensions tt embeddings labels identifiers numDimensions with
  | Except.error e => Except.error e
  | Except.ok sd =>
    let cr := performClustering km embeddings sd.1 numClusters
    let pca := performPCA svd cr.standardizedData
    Except.ok
      { clusterAssignments := cr.clusters
        points := pca.projectedData.enum.map (fun p =>
          { x := p.2.getD 0 0
            y := p.2.getD 1 0
            identifier := identifiers.getD p.1 ""
            cluster := cr.clusters[p.1]?
            label := labelOf labels (identifiers.getD p.1 "") })
        explainedVariance := pca.explainedVariance
        totalVarianceExplained := pca.totalVariance
        selectedDimensions := sd.1
        dimensionStats := sd.2.map (fun st =>
          (st.dimension, st.pValue,
            if st.pValue < 1 / 20 then "significant" else "not significant"))
        numClusters := numClusters
        numDimensions := numDimensions
        totalSamples := embeddings.length
        labeledSamples := labels.length
        clusters := assembleClusters labels identifiers cr.clusters numClusters }

/-- The number of distinct label values attached to identified rows, counting
the empty string if it is used as a label value (the claim-side notion). -/
def distinctIdentifiedValues (labels : List (String × String))
    (identifiers : List String) : ℕ :=
  ((identifiers.filterMap (lookupLabel labels)).dedup).length

/-- The number of distinct non-empty label values attached to identified rows
(the notion the code's falsy-label check actually implements). -/
def distinctIdentifiedNonEmpty (labels : List (String × String))
    (identifiers : List String) : ℕ :=
  ((identifiers.filterMap (labelOf labels)).dedup).length

/-! ## Helper lemmas -/

theorem performPCA_totalVariance_eq (svd : List (List K) → List (List K) × List K)
    (data : List (List K)) :
    (performPCA svd data).totalVariance =
      (performPCA svd data).explainedVariance.getD 0 0 +
        (performPCA svd data).explainedVariance.getD 1 0 := by
  unfold performPCA
  split
  · simp
  · split
    · simp
    · rfl

theorem enum_map_proj (u : List (List K)) :
    ((u.map (fun r => r.getD 0 0)).enum).map
        (fun p => [p.2, (u.map (fun r => r.getD 1 0)).getD p.1 0]) =
      u.map (fun r => [r.getD 0 0, r.getD 1 0]) := by
  apply List.ext_getElem
  · simp
  · intro i h1 h2
    have hi : i < u.length := by simpa using h2
    simp [List.getD_eq_getElem?_getD, List.getElem?_eq_getElem hi]

/-! ## Claim theorems -/

/-- C4: `performPCA` never throws on degenerate input: with 0 rows or 0 columns
it returns points `(row_index, 0)` with `explainedVariance = [1.0, 0.0]`; a
non-empty matrix that gets past that check with fewer than 2 columns yields
points `(value_or_0, row_index * 0.1)` with the same degenerate variance. -/
theorem performPCA_degenerate (svd : List (List K) → List (List K) × List K)
    (data : List (List K)) :
    (data.length = 0 ∨ data.headI.length = 0 →
      performPCA svd data =
        ⟨data.enum.map (fun p => [(p.1 : K), 0]), [1, 0], 1⟩) ∧
    (data.length ≠ 0 → data.headI.length ≠ 0 → data.headI.length < 2 →
      performPCA svd data =
        ⟨data.enum.map (fun p => [p.2.getD 0 0, (p.1 : K) * (1 / 10)]), [1, 0], 1⟩) := by
  constructor
  · intro h
    unfold performPCA
    rw [if_pos h]
  · intro h1 h2 h3
    unfold performPCA
    rw [if_neg (by simp [h1, h2]), if_pos h3]

/-- C4 witness: the degenerate branches evaluated on a 2×0 matrix and on a
2-row 1-column matrix. -/
theorem performPCA_degenerate_witness :
    performPCA (K := ℚ) (fun _ => ([], [])) [[], []] =
      ⟨[[0, 0], [1, 0]], [1, 0], 1⟩ ∧
    performPCA (K := ℚ) (fun _ => ([], [])) [[5], [7]] =
      ⟨[[5, 0], [7, 1 / 10]], [1, 0], 1⟩ := by
  constructor
  · have h := (performPCA_degenerate (K := ℚ) (fun _ => ([], [])) [[], []]).1 (by simp)
    simpa using h
  · have h := (performPCA_degenerate (K := ℚ) (fun _ => ([], [])) [[5], [7]]).2
      (by simp) (by simp) (by simp)
    simp only [h]
    norm_num [List.enum]

/-- C5: on the main path (N ≥ 1 rows, d ≥ 2 columns) `performPCA` centers the
matrix by subtracting each column's arithmetic mean, feeds the centered matrix
to the SVD, and projects row i to the i-th entries of the raw first and second
left singular vector columns (not rescaled by singular values). -/
theorem performPCA_main_projection (svd : List (List K) → List (List K) × List K)
    (data : List (List K)) (h1 : data.length ≠ 0) (h2 : 2 ≤ data.headI.length) :
    (performPCA svd data).projectedData =
      ((svd (centerMatrix data)).1).map (fun r => [r.getD 0 0, r.getD 1 0]) ∧
    centerMatrix data =
      data.map (fun row => row.enum.map (fun p =>
        p.2 - (data.map (fun r => r.getD p.1 0)).sum / (data.length : K))) := by
  constructor
  · unfold performPCA
    rw [if_neg ?hc1, if_neg ?hc2]
    case hc1 =>
      rintro (h | h)
      · exact h1 h
      · omega
    case hc2 => omega
    exact enum_map_proj _
  · rfl

/-- C5 witness: the projection formula evaluated at a concrete 2×2 matrix and a
concrete SVD oracle. -/
theorem performPCA_main_projection_witness :
    (performPCA (K := ℚ) (fun _ => ([[3, 4, 9], [5, 6, 9]], [7, 8])) [[1, 2], [3, 4]]).projectedData =
      [[3, 4], [5, 6]] := by
  have h := (performPCA_main_projection (K := ℚ) (fun _ => ([[3, 4, 9], [5, 6, 9]], [7, 8]))
    [[1, 2], [3, 4]] (by simp) (by simp)).1
  simpa using h

/-- C6: on the main path every retained singular value becomes an eigenvalue
σ²/(N−1); totalVariance is the sum over all of them; the two explained-variance
ratios divide the first two eigenvalues by that total; and the pipeline's
reported `totalVarianceExplained` equals their sum. -/
theorem pca_variance_accounting (svd : List (List K) → List (List K) × List K)
    (data : List (List K)) (h1 : data.length ≠ 0) (h2 : 2 ≤ data.headI.length)
    (tt : List ℝ → List ℝ → ℝ × ℝ) (km : List (List ℝ) → ℕ → List ℕ × List (List ℝ))
    (rsvd : List (List ℝ) → List (List ℝ) × List ℝ) (embeddings : List (List ℝ))
    (labels : List (String × String)) (identifiers : List String) (nD nC : ℕ) :
    (pcaEigenvalues svd data =
        ((svd (centerMatrix data)).2).map (fun sv => sv * sv / ((data.length : K) - 1)) ∧
      pcaTotalVariance svd data = (pcaEigenvalues svd data).sum ∧
      (performPCA svd data).explainedVariance =
        [(pcaEigenvalues svd data).getD 0 0 / pcaTotalVariance svd data,
          (pcaEigenvalues svd data).getD 1 0 / pcaTotalVariance svd data] ∧
      (performPCA svd data).totalVariance =
        (performPCA svd data).explainedVariance.getD 0 0 +
          (performPCA svd data).explainedVariance.getD 1 0) ∧
    Except.map (fun r => r.totalVarianceExplained)
        (performAnalysis tt km rsvd embeddings labels identifiers nD nC) =
      Except.map (fun r => r.explainedVariance.getD 0 0 + r.explainedVariance.getD 1 0)
        (performAnalysis tt km rsvd embeddings labels identifiers nD nC) := by
  refine ⟨⟨rfl, rfl, ?_, performPCA_totalVariance_eq svd data⟩, ?_⟩
  · unfold performPCA
    rw [if_neg ?hc1, if_neg ?hc2]
    case hc1 =>
      rintro (h | h)
      · exact h1 h
      · omega
    case hc2 => omega
    rfl
  · unfold performAnalysis
    cases selectDiscriminativeDimensions tt embeddings labels identifiers nD with
    | error e => rfl
    | ok sd =>
      simp only [Except.map]
      exact congrArg Except.ok (performPCA_totalVariance_eq _ _)

/-- C6 witness: the variance accounting evaluated at a concrete 2×2 matrix, a
concrete SVD oracle with singular values 3 and 1, and a concrete pipeline
instantiation. -/
theorem pca_variance_accounting_witness :
    (performPCA (K := ℚ) (fun _ => ([[1, 0], [0, 1]], [3, 1])) [[1, 2], [3, 4]]).explainedVariance =
      [(9 : ℚ) / 10, 1 / 10] := by
  have h := (pca_variance_accounting (K := ℚ) (fun _ => ([[1, 0], [0, 1]], [3, 1]))
    [[1, 2], [3, 4]] (by simp) (by simp) (fun _ _ => (0, 0)) (fun _ _ => ([], []))
    (fun _ => ([], [])) [] [] [] 0 0).1.2.2.1
  rw [h]
  norm_num [pcaEigenvalues, pcaTotalVariance]

/-- C10: the explained-variance division has no zero-denominator guard: on the
valid main-path input [[1,1],[1,1]] (all rows equal) the centered matrix is
zero, so every singular value is 0, totalVariance is 0, and both explained
variance entries are computed as eigenvalue / 0. -/
theorem pca_zero_variance_division (svd : List (List ℚ) → List (List ℚ) × List ℚ)
    (hz : ∀ x ∈ (svd (centerMatrix [[1, 1], [1, 1]])).2, x = 0) :
    centerMatrix ([[1, 1], [1, 1]] : List (List ℚ)) = [[0, 0], [0, 0]] ∧
    pcaTotalVariance svd [[1, 1], [1, 1]] = 0 ∧
    (performPCA svd [[1, 1], [1, 1]]).explainedVariance =
      [(pcaEigenvalues svd [[1, 1], [1, 1]]).getD 0 0 / pcaTotalVariance svd [[1, 1], [1, 1]],
        (pcaEigenvalues svd [[1, 1], [1, 1]]).getD 1 0 /
          pcaTotalVariance svd [[1, 1], [1, 1]]] := by
  refine ⟨?_, ?_, ?_⟩
  · simp only [centerMatrix, colMean, colOf, List.enum, List.enumFrom, List.map_cons,
      List.map_nil, List.sum_cons, List.sum_nil, List.length_cons, List.length_nil,
      List.getD_cons_zero, List.getD_cons_succ]
    norm_num
  · apply List.sum_eq_zero
    intro x hx
    simp only [pcaEigenvalues, List.mem_map] at hx
    obtain ⟨sv, hsv, rfl⟩ := hx
    rw [hz sv hsv]
    ring
  · unfold performPCA
    rw [if_neg (by simp), if_neg (by simp)]
    rfl

/-- C10 witness: a concrete SVD oracle returning zero singular values on the
zero matrix (as any real SVD does). -/
theorem pca_zero_variance_division_witness :
    pcaTotalVariance (fun _ => ([[1, 0], [0, 1]], [0, 0]))
        ([[1, 1], [1, 1]] : List (List ℚ)) = 0 ∧
    (performPCA (fun _ => ([[1, 0], [0, 1]], [0, 0]))
        ([[1, 1], [1, 1]] : List (List ℚ))).explainedVariance =
      [(pcaEigenvalues (fun _ => ([[1, 0], [0, 1]], [0, 0]))
            ([[1, 1], [1, 1]] : List (List ℚ))).getD 0 0 /
          pcaTotalVariance (fun _ => ([[1, 0], [0, 1]], [0, 0]))
            ([[1, 1], [1, 1]] : List (List ℚ)),
        (pcaEigenvalues (fun _ => ([[1, 0], [0, 1]], [0, 0]))
            ([[1, 1], [1, 1]] : List (List ℚ))).getD 1 0 /
          pcaTotalVariance (fun _ => ([[1, 0], [0, 1]], [0, 0]))
            ([[1, 1], [1, 1]] : List (List ℚ))] := by
  have h := pca_zero_variance_division (fun _ => ([[1, 0], [0, 1]], [0, 0])) (by decide)
  exact ⟨h.2.1, h.2.2⟩

/-- C7 (code-bug evidence): `performClustering` contains no validation of the
cluster count whatsoever: for every k — including k = 0 and k > N — the
K-means routine is invoked directly on the standardized matrix with that k,
and no `ValidationError` path exists in its type. -/
theorem performClustering_forwards_any_k
    (km : List (List ℝ) → ℕ → List ℕ × List (List ℝ))
    (embeddings : List (List ℝ)) (selectedDimensions : List ℕ) (numClusters : ℕ) :
    (performClustering km embeddings selectedDimensions numClusters).clusters =
      (km (standardizeMatrix (reducedEmbeddings embeddings selectedDimensions))
        numClusters).1 ∧
    (performClustering km embeddings selectedDimensions numClusters).centroids =
      (km (standardizeMatrix (reducedEmbeddings embeddings selectedDimensions))
        numClusters).2 :=
  ⟨rfl, rfl⟩

theorem colOf_standardizeMatrix (m : List (List ℝ)) (d : ℕ)
    (hrect : ∀ row ∈ m, row.length = d) (c : ℕ) (hc : c < d) :
    colOf (standardizeMatrix m) c =
      (colOf m c).map (fun v =>
        if 0 < colStd m c then (v - colMean m c) / colStd m c else v) := by
  unfold colOf standardizeMatrix
  rw [List.map_map, List.map_map]
  apply List.map_congr_left
  intro row hrow
  have hc' : c < row.length := by
    rw [hrect row hrow]; exact hc
  have h1 : c < (row.enum.map (fun p =>
      if 0 < colStd m p.1 then (p.2 - colMean m p.1) / colStd m p.1 else p.2)).length := by
    simpa using hc'
  simp only [Function.comp_apply, List.getD_eq_getElem?_getD, List.getElem?_eq_getElem h1,
    List.getElem?_eq_getElem hc', List.getElem_map, List.getElem_enum, Option.getD_some]

/-- C1: for every N×d matrix (N ≥ 1, d ≥ 1) and column c, standardization uses
the arithmetic column mean and the Bessel-corrected sample standard deviation
(squared deviations summed and divided by N−1, under the square root); when
that std is positive every column value becomes (value − mean) / std, and when
it is zero the column is returned completely unchanged. -/
theorem standardize_column_spec (m : List (List ℝ)) (N d : ℕ) (hN : 1 ≤ N)
    (hlen : m.length = N) (hrect : ∀ row ∈ m, row.length = d) (c : ℕ) (hc : c < d) :
    colMean m c = (colOf m c).sum / (N : ℝ) ∧
    colStd m c = Real.sqrt ((((colOf m c).map (fun v =>
        (v - colMean m c) * (v - colMean m c))).sum) / ((N : ℝ) - 1)) ∧
    (0 < colStd m c →
      colOf (standardizeMatrix m) c =
        (colOf m c).map (fun v => (v - colMean m c) / colStd m c)) ∧
    (colStd m c = 0 → colOf (standardizeMatrix m) c = colOf m c) := by
  subst hlen
  refine ⟨rfl, rfl, ?_, ?_⟩
  · intro h
    rw [colOf_standardizeMatrix m d hrect c hc]
    exact List.map_congr_left (fun v _ => if_pos h)
  · intro h
    rw [colOf_standardizeMatrix m d hrect c hc]
    have hid : ∀ v ∈ colOf m c,
        (if 0 < colStd m c then (v - colMean m c) / colStd m c else v) = v := by
      intro v _
      rw [h]
      simp
    rw [List.map_congr_left hid, List.map_id']

/-- C1 witness: the column [0, 1, 2] has mean 1, Bessel std √1 = 1, and is
standardized to [−1, 0, 1]. -/
theorem standardize_column_spec_witness :
    colStd [[0], [1], [2]] 0 = 1 ∧
    colOf (standardizeMatrix [[0], [1], [2]]) 0 = [-1, 0, 1] := by
  have hmean : colMean ([[0], [1], [2]] : List (List ℝ)) 0 = 1 := by
    norm_num [colMean, colOf]
  have hstd : colStd [[0], [1], [2]] 0 = 1 := by
    unfold colStd
    norm_num [colOf, hmean, Real.sqrt_one]
  refine ⟨hstd, ?_⟩
  have h := (standardize_column_spec [[0], [1], [2]] 3 1 (by norm_num) (by norm_num)
    (by simp) 0 (by norm_num)).2.2.1 (by rw [hstd]; exact one_pos)
  rw [h, hstd, hmean]
  norm_num [colOf]

theorem sum_range_filter_length {α : Type} (l : List α) (f : α → ℕ) (k : ℕ)
    (hf : ∀ x ∈ l, f x < k) :
    ((List.range k).map (fun j => (l.filter (fun x => f x == j)).length)).sum = l.length := by
  show (∑ j ∈ Finset.range k, (l.filter (fun x => f x == j)).length) = l.length
  induction l with
  | nil => simp
  | cons x t ih =>
    have hx : f x < k := hf x (List.mem_cons_self x t)
    have ht : ∀ y ∈ t, f y < k := fun y hy => hf y (List.mem_cons_of_mem x hy)
    have hsplit : ∀ j, (List.filter (fun y => f y == j) (x :: t)).length =
        (if j = f x then 1 else 0) + (t.filter (fun y => f y == j)).length := by
      intro j
      by_cases hj : f x = j
      · simp [List.filter_cons, hj, Nat.add_comm]
      · simp [List.filter_cons, hj, Ne.symm hj]
    calc (∑ j ∈ Finset.range k, (List.filter (fun y => f y == j) (x :: t)).length)
        = ∑ j ∈ Finset.range k,
            ((if j = f x then 1 else 0) + (t.filter (fun y => f y == j)).length) := by
          exact Finset.sum_congr rfl (fun j _ => hsplit j)
      _ = (∑ j ∈ Finset.range k, if j = f x then 1 else 0) +
            ∑ j ∈ Finset.range k, (t.filter (fun y => f y == j)).length := by
          rw [Finset.sum_add_distrib]
      _ = 1 + t.length := by
          rw [ih ht, Finset.sum_ite_eq' (Finset.range k) (f x) (fun _ => 1),
            if_pos (Finset.mem_range.mpr hx)]
      _ = (x :: t).length := by
          simp [Nat.add_comm]

/-- C9: with every assignment in [0, numClusters), the assembled clusters array
has exactly numClusters entries with ids 0..numClusters−1 in order; row i's
identifier is listed in cluster j exactly when assignments[i] = j; each size
field is its items length; and the sizes sum to the number of rows.  The final
conjunct ties the assembly to the pipeline result record. -/
theorem assembleClusters_partition (labels : List (String × String))
    (identifiers : List String) (assignments : List ℕ) (numClusters : ℕ)
    (hlen : assignments.length = identifiers.length)
    (hbound : ∀ a ∈ assignments, a < numClusters)
    (hnodup : identifiers.Nodup)
    (tt : List ℝ → List ℝ → ℝ × ℝ) (km : List (List ℝ) → ℕ → List ℕ × List (List ℝ))
    (svd : List (List ℝ) → List (List ℝ) × List ℝ) (embeddings : List (List ℝ)) (nD : ℕ) :
    (assembleClusters labels identifiers assignments numClusters).length = numClusters ∧
    (∀ j, j < numClusters →
      (assembleClusters labels identifiers assignments numClusters).getD j ⟨0, [], 0⟩ =
        { id := j
          items := (identifiers.enum.filter
              (fun p => assignments[p.1]? == some j)).map
            (fun p => (p.2, labelOf labels p.2))
          size := ((identifiers.enum.filter
              (fun p => assignments[p.1]? == some j)).map
            (fun p => (p.2, labelOf labels p.2))).length }) ∧
    (∀ i, i < identifiers.length → ∀ j, j < numClusters →
      (identifiers.getD i "" ∈
          (((assembleClusters labels identifiers assignments numClusters).getD j
            ⟨0, [], 0⟩).items).map Prod.fst ↔
        assignments.getD i 0 = j)) ∧
    (((assembleClusters labels identifiers assignments numClusters).map
        ClusterGroup.size).sum = identifiers.length) ∧
    Except.map (fun r => r.clusters)
        (performAnalysis tt km svd embeddings labels identifiers nD numClusters) =
      Except.map
        (fun r => assembleClusters labels identifiers r.clusterAssignments numClusters)
        (performAnalysis tt km svd embeddings labels identifiers nD numClusters) := by
  have hget : ∀ j, j < numClusters →
      (assembleClusters labels identifiers assignments numClusters).getD j ⟨0, [], 0⟩ =
        { id := j
          items := (identifiers.enum.filter
              (fun p => assignments[p.1]? == some j)).map
            (fun p => (p.2, labelOf labels p.2))
          size := ((identifiers.enum.filter
              (fun p => assignments[p.1]? == some j)).map
            (fun p => (p.2, labelOf labels p.2))).length } := by
    intro j hj
    have hj' : j < (assembleClusters labels identifiers assignments numClusters).length := by
      simpa [assembleClusters] using hj
    rw [List.getD_eq_getElem?_getD, List.getElem?_eq_getElem hj']
    simp [assembleClusters]
  refine ⟨by simp [assembleClusters], hget, ?_, ?_, ?_⟩
  · intro i hi j hj
    rw [hget j hj]
    simp only [List.map_map, List.mem_map, Function.comp_apply, List.mem_filter,
      List.mem_enum_iff_getElem?]
    constructor
    · rintro ⟨⟨idx, v⟩, ⟨hmem, hpred⟩, hv⟩
      simp only at hpred hv
      have hidx : idx < identifiers.length := by
        by_contra hge
        rw [List.getElem?_eq_none (by omega)] at hmem
        exact Option.noConfusion hmem
      have hvv : identifiers[idx] = v := by
        rw [List.getElem?_eq_getElem hidx] at hmem
        exact Option.some.inj hmem
      have : identifiers.get ⟨idx, hidx⟩ = identifiers.get ⟨i, hi⟩ := by
        simp only [List.get_eq_getElem, hvv, hv, List.getD_eq_getElem?_getD,
          List.getElem?_eq_getElem hi, Option.getD_some]
      have hij : idx = i := by
        have := (hnodup.get_inj_iff.mp this)
        exact Fin.mk.inj_iff.mp this
      subst hij
      have ha : idx < assignments.length := by omega
      rw [List.getElem?_eq_getElem ha] at hpred
      have := of_decide_eq_true hpred
      rw [List.getD_eq_getElem?_getD, List.getElem?_eq_getElem ha]
      simpa using this
    · intro hji
      have ha : i < assignments.length := by omega
      refine ⟨(i, identifiers[i]), ⟨?_, ?_⟩, ?_⟩
      · rw [List.getElem?_eq_getElem hi]
      · rw [List.getElem?_eq_getElem ha]
        rw [List.getD_eq_getElem?_getD, List.getElem?_eq_getElem ha] at hji
        simpa using hji
      · rw [List.getD_eq_getElem?_getD, List.getElem?_eq_getElem hi]
        rfl
  · have hmap : (assembleClusters labels identifiers assignments numClusters).map
        ClusterGroup.size =
        (List.range numClusters).map (fun j =>
          (identifiers.enum.filter
            (fun p => (assignments.getD p.1 0) == j)).length) := by
      simp only [assembleClusters, List.map_map]
      apply List.map_congr_left
      intro j hj
      simp only [Function.comp_apply, List.length_map]
      congr 1
      apply List.filter_congr
      intro p hp
      have hp1 : p.1 < identifiers.length := by
        rcases List.mem_enum_iff_getElem?.mp hp with h
        by_contra hge
        rw [List.getElem?_eq_none (by omega)] at h
        exact Option.noConfusion h
      have ha : p.1 < assignments.length := by omega
      rw [List.getElem?_eq_getElem ha, List.getD_eq_getElem?_getD,
        List.getElem?_eq_getElem ha]
      simp
    rw [hmap, sum_range_filter_length identifiers.enum (fun p => assignments.getD p.1 0)
      numClusters ?hbd]
    · exact List.enum_length
    case hbd =>
      intro p hp
      have hp1 : p.1 < identifiers.length := by
        have h := List.mem_enum_iff_getElem?.mp hp
        by_contra hge
        rw [List.getElem?_eq_none (by omega)] at h
        exact Option.noConfusion h
      have ha : p.1 < assignments.length := by omega
      show assignments.getD p.1 0 < numClusters
      rw [List.getD_eq_getElem?_getD, List.getElem?_eq_getElem ha]
      exact hbound _ (List.getElem_mem ha)
  · unfold performAnalysis
    cases selectDiscriminativeDimensions tt embeddings labels identifiers nD with
    | error e => rfl
    | ok sd => rfl

/-- C9 witness: identifiers a, b, c with assignments [1, 0, 1] into 2 clusters
give sizes summing to 3. -/
theorem assembleClusters_partition_witness :
    ((assembleClusters [("a", "A"), ("b", "B")] ["a", "b", "c"] [1, 0, 1] 2).map
      ClusterGroup.size).sum = 3 :=
  (assembleClusters_partition [("a", "A"), ("b", "B")] ["a", "b", "c"] [1, 0, 1] 2
    (by decide) (by decide) (by decide) (fun _ _ => (1, 0)) (fun _ _ => ([], []))
    (fun _ => ([], [])) [] 0).2.2.2.1

theorem scoreFold_go (acc : K × K) (ps : List (K × K)) :
    ((∀ q ∈ ps, acc.1 ≤ q.1) ∧ List.foldl scoreStep acc ps = acc) ∨
    ((List.foldl scoreStep acc ps).1 < acc.1 ∧
      (∀ q ∈ ps, (List.foldl scoreStep acc ps).1 ≤ q.1) ∧
      (List.foldl scoreStep acc ps).1 ∈ ps.map Prod.fst ∧
      ∃ q₀, ps.find? (fun q => q.1 == (List.foldl scoreStep acc ps).1) = some q₀ ∧
        (List.foldl scoreStep acc ps).2 = |q₀.2|) := by
  induction ps generalizing acc with
  | nil =>
    left
    exact ⟨fun q hq => absurd hq (List.not_mem_nil q), rfl⟩
  | cons q t ih =>
    rw [List.foldl_cons]
    by_cases hq : q.1 < acc.1
    · have hstep : scoreStep acc q = (q.1, |q.2|) := if_pos hq
      rw [hstep]
      rcases ih (q.1, |q.2|) with ⟨hall, heq⟩ | ⟨hlt, hall, hmem, q₀, hfind, hstat⟩
      · right
        rw [heq]
        refine ⟨hq, ?_, ?_, q, ?_, rfl⟩
        · intro q' hq'
          rcases List.mem_cons.mp hq' with rfl | hq'
          · exact le_refl _
          · exact hall q' hq'
        · exact List.mem_map.mpr ⟨q, List.mem_cons_self q t, rfl⟩
        · exact List.find?_cons_of_pos t (by simp)
      · right
        refine ⟨lt_trans hlt hq, ?_, ?_, q₀, ?_, hstat⟩
        · intro q' hq'
          rcases List.mem_cons.mp hq' with rfl | hq'
          · exact le_of_lt hlt
          · exact hall q' hq'
        · exact List.mem_map.mpr
            ⟨_, List.mem_cons_of_mem q (List.mem_map.mp hmem).choose_spec.1,
              (List.mem_map.mp hmem).choose_spec.2⟩
        · rw [List.find?_cons_of_neg t (by simp; exact ne_of_gt hlt)]
          exact hfind
    · have hstep : scoreStep acc q = acc := if_neg hq
      rw [hstep]
      rcases ih acc with ⟨hall, heq⟩ | ⟨hlt, hall, hmem, q₀, hfind, hstat⟩
      · left
        refine ⟨?_, heq⟩
        intro q' hq'
        rcases List.mem_cons.mp hq' with rfl | hq'
        · exact not_lt.mp hq
        · exact hall q' hq'
      · right
        refine ⟨hlt, ?_, ?_, q₀, ?_, hstat⟩
        · intro q' hq'
          rcases List.mem_cons.mp hq' with rfl | hq'
          · exact le_of_lt (lt_of_lt_of_le hlt (not_lt.mp hq))
          · exact hall q' hq'
        · exact List.mem_map.mpr
            ⟨_, List.mem_cons_of_mem q (List.mem_map.mp hmem).choose_spec.1,
              (List.mem_map.mp hmem).choose_spec.2⟩
        · rw [List.find?_cons_of_neg t
            (by simp; exact ne_of_gt (lt_of_lt_of_le hlt (not_lt.mp hq)))]
          exact hfind

theorem pairResults_mem_shape (tt : List K → List K → K × K) (embeddings : List (List K))
    (groups : List (String × List ℕ)) (dim : ℕ) (q : K × K)
    (hq : q ∈ pairResults tt embeddings groups dim) :
    ∃ g1 g2, q = performTTest tt g1 g2 := by
  rcases List.mem_flatMap.mp hq with ⟨i, _, hin⟩
  rcases List.mem_map.mp hin with ⟨j, _, rfl⟩
  exact ⟨_, _, rfl⟩

theorem performTTest_le_one (tt : List K → List K → K × K)
    (htt1 : ∀ g1 g2, (tt g1 g2).1 ≤ 1) (g1 g2 : List K) :
    (performTTest tt g1 g2).1 ≤ 1 := by
  unfold performTTest
  split
  · exact le_refl 1
  · exact htt1 g1 g2

theorem performTTest_p_one_statistic (tt : List K → List K → K × K)
    (htt0 : ∀ g1 g2, (tt g1 g2).1 = 1 → (tt g1 g2).2 = 0) (g1 g2 : List K)
    (h : (performTTest tt g1 g2).1 = 1) : (performTTest tt g1 g2).2 = 0 := by
  unfold performTTest at h ⊢
  by_cases hc : g1.length < 2 ∨ g2.length < 2
  · rw [if_pos hc]
  · rw [if_neg hc] at h ⊢
    exact htt0 g1 g2 h

theorem pairResults_ne_nil (tt : List K → List K → K × K) (embeddings : List (List K))
    (groups : List (String × List ℕ)) (dim : ℕ) (hg : 2 ≤ groups.length) :
    pairResults tt embeddings groups dim ≠ [] := by
  intro hnil
  have h0 : (0 : ℕ) ∈ List.range (groups.length - 1) := List.mem_range.mpr (by omega)
  have h1 : (1 : ℕ) ∈ (List.range groups.length).drop 1 := by
    have hlt : 0 < ((List.range groups.length).drop 1).length := by
      simp [List.length_drop]
      omega
    have hel : ((List.range groups.length).drop 1)[0] = 1 := by
      rw [List.getElem_drop]
      simp [List.getElem_range]
    have hm := List.getElem_mem hlt
    rw [hel] at hm
    exact hm
  have hmem : performTTest tt
      (groupValues embeddings (groups.getD 0 ("", [])).2 dim)
      (groupValues embeddings (groups.getD 1 ("", [])).2 dim) ∈
      pairResults tt embeddings groups dim := by
    apply List.mem_flatMap.mpr
    exact ⟨0, h0, List.mem_map.mpr ⟨1, h1, rfl⟩⟩
  rw [hnil] at hmem
  exact List.not_mem_nil _ hmem

/-- C3: a dimension's recorded p-value is the minimum over all unordered group
pairs (in increasing (i, j) enumeration order) of the pair's t-test p-value; a
pair with fewer than 2 values on either side contributes the placeholder
(p-value 1, statistic 0) rather than being skipped; and the recorded statistic
is the absolute t-statistic of the first pair attaining that minimum (earlier
pairs win ties). -/
theorem dimension_score_spec (tt : List K → List K → K × K) (embeddings : List (List K))
    (labels : List (String × String)) (identifiers : List String) (dim : ℕ)
    (hdim : dim < embeddings.headI.length)
    (htt1 : ∀ g1 g2, (tt g1 g2).1 ≤ 1)
    (htt0 : ∀ g1 g2, (tt g1 g2).1 = 1 → (tt g1 g2).2 = 0)
    (hg : 2 ≤ (groupsOf labels identifiers).length) :
    (dimensionStatsAll tt embeddings labels identifiers).getD dim ⟨0, 0, 0⟩ =
      ⟨dim, (scoreFold (pairResults tt embeddings (groupsOf labels identifiers) dim)).1,
        (scoreFold (pairResults tt embeddings (groupsOf labels identifiers) dim)).2⟩ ∧
    pairResults tt embeddings (groupsOf labels identifiers) dim ≠ [] ∧
    (∀ q ∈ pairResults tt embeddings (groupsOf labels identifiers) dim,
      (scoreFold (pairResults tt embeddings (groupsOf labels identifiers) dim)).1 ≤ q.1) ∧
    (scoreFold (pairResults tt embeddings (groupsOf labels identifiers) dim)).1 ∈
      (pairResults tt embeddings (groupsOf labels identifiers) dim).map Prod.fst ∧
    (∀ q₀, (pairResults tt embeddings (groupsOf labels identifiers) dim).find?
        (fun q => q.1 ==
          (scoreFold (pairResults tt embeddings (groupsOf labels identifiers) dim)).1) =
        some q₀ →
      (scoreFold (pairResults tt embeddings (groupsOf labels identifiers) dim)).2 = |q₀.2|) ∧
    (∀ g1 g2 : List K, g1.length < 2 ∨ g2.length < 2 → performTTest tt g1 g2 = (1, 0)) := by
  set ps := pairResults tt embeddings (groupsOf labels identifiers) dim with hps
  have hle1 : ∀ q ∈ ps, q.1 ≤ 1 := by
    intro q hq
    rcases pairResults_mem_shape tt embeddings (groupsOf labels identifiers) dim q hq with
      ⟨g1, g2, rfl⟩
    exact performTTest_le_one tt htt1 g1 g2
  have hp0 : ∀ q ∈ ps, q.1 = 1 → q.2 = 0 := by
    intro q hq
    rcases pairResults_mem_shape tt embeddings (groupsOf labels identifiers) dim q hq with
      ⟨g1, g2, rfl⟩
    exact performTTest_p_one_statistic tt htt0 g1 g2
  have hne : ps ≠ [] := pairResults_ne_nil tt embeddings (groupsOf labels identifiers) dim hg
  have hentry : (dimensionStatsAll tt embeddings labels identifiers).getD dim ⟨0, 0, 0⟩ =
      ⟨dim, (scoreFold ps).1, (scoreFold ps).2⟩ := by
    have hd : dim < (List.range embeddings.headI.length).length := by simpa using hdim
    unfold dimensionStatsAll
    rw [List.getD_eq_getElem?_getD, List.getElem?_eq_getElem (by simpa using hdim),
      List.getElem_map, List.getElem_range]
    rfl
  refine ⟨hentry, hne, ?_⟩
  rcases scoreFold_go (K := K) (1, 0) ps with ⟨hall, heq⟩ | ⟨_, hall, hmem, q₀, hfind, hstat⟩
  · have hone : (scoreFold ps).1 = 1 := by
      unfold scoreFold
      rw [heq]
    have hallone : ∀ q ∈ ps, q.1 = 1 := fun q hq =>
      le_antisymm (hle1 q hq) (by simpa using hall q hq)
    refine ⟨?_, ?_, ?_, ?_⟩
    · intro q hq
      rw [hone, hallone q hq]
    · rcases List.exists_mem_of_ne_nil ps hne with ⟨q, hq⟩
      rw [hone]
      exact List.mem_map.mpr ⟨q, hq, hallone q hq⟩
    · intro q₀ hfind
      have hq₀ : q₀ ∈ ps := List.mem_of_find?_eq_some hfind
      have : q₀.2 = 0 := hp0 q₀ hq₀ (hallone q₀ hq₀)
      unfold scoreFold
      rw [heq, this]
      simp
    · intro g1 g2 h
      unfold performTTest
      rw [if_pos h]
  · refine ⟨?_, ?_, ?_, ?_⟩
    · intro q hq
      exact hall q hq
    · exact hmem
    · intro q₁ hfind₁
      rw [show scoreFold ps = List.foldl scoreStep (1, 0) ps from rfl] at hfind₁ ⊢
      rw [hfind₁] at hfind
      rw [Option.some.inj hfind]
      exact hstat
    · intro g1 g2 h
      unfold performTTest
      rw [if_pos h]

/-- C3 witness: two groups of two rows each on a 1-dimensional embedding, with
a concrete t-test oracle. -/
theorem dimension_score_spec_witness :
    (dimensionStatsAll (fun _ _ => ((1 : ℚ) / 2, 3)) [[1], [2] , [3], [4]]
        [("a", "X"), ("b", "X"), ("c", "Y"), ("d", "Y")] ["a", "b", "c", "d"]).getD 0
        ⟨0, 0, 0⟩ =
      ⟨0, (scoreFold (pairResults (fun _ _ => ((1 : ℚ) / 2, 3)) [[1], [2], [3], [4]]
        (groupsOf [("a", "X"), ("b", "X"), ("c", "Y"), ("d", "Y")] ["a", "b", "c", "d"]) 0)).1,
        (scoreFold (pairResults (fun _ _ => ((1 : ℚ) / 2, 3)) [[1], [2], [3], [4]]
          (groupsOf [("a", "X"), ("b", "X"), ("c", "Y"), ("d", "Y")]
            ["a", "b", "c", "d"]) 0)).2⟩ :=
  (dimension_score_spec (fun _ _ => ((1 : ℚ) / 2, 3)) [[1], [2], [3], [4]]
    [("a", "X"), ("b", "X"), ("c", "Y"), ("d", "Y")] ["a", "b", "c", "d"] 0
    (by decide) (fun _ _ => by norm_num) (fun _ _ h => by norm_num at h)
    (by decide)).1

theorem statLE_trans (a b c : DimStat K) (h1 : statLE a b = true) (h2 : statLE b c = true) :
    statLE a c = true := by
  simp only [statLE, decide_eq_true_eq] at h1 h2 ⊢
  exact le_trans h1 h2

theorem statLE_total (a b : DimStat K) : (statLE a b || statLE b a) = true := by
  simp only [statLE, Bool.or_eq_true, decide_eq_true_eq]
  exact le_total a.pValue b.pValue

theorem get_pair_sublist {α : Type} :
    ∀ (l : List α) (i j : ℕ) (hi : i < l.length) (hj : j < l.length), i < j →
      List.Sublist [l[i], l[j]] l := by
  intro l
  induction l with
  | nil =>
    intro i j hi
    exact absurd hi (by simp)
  | cons a t ih =>
    intro i j hi hj hij
    match i, j with
    | 0, j + 1 =>
      simp only [List.getElem_cons_zero, List.getElem_cons_succ]
      exact List.Sublist.cons₂ a (List.singleton_sublist.mpr (List.getElem_mem _))
    | i + 1, j + 1 =>
      simp only [List.getElem_cons_succ]
      exact List.Sublist.cons a (ih i j (by simpa using hi) (by simpa using hj) (by omega))

theorem eq_of_pair_sublists {α : Type} {a b : α} :
    ∀ {l : List α}, l.Nodup → List.Sublist [a, b] l → List.Sublist [b, a] l → a = b := by
  intro l
  induction l with
  | nil =>
    intro _ h1 _
    exact absurd h1 (by simp)
  | cons c t ih =>
    intro hnd h1 h2
    rcases List.nodup_cons.mp hnd with ⟨hc, hndt⟩
    cases h1 with
    | cons _ h1' =>
      cases h2 with
      | cons _ h2' => exact ih hndt h1' h2'
      | cons₂ _ h2' =>
        exact absurd (h1'.subset (by simp)) hc
    | cons₂ _ h1' =>
      cases h2 with
      | cons _ h2' =>
        exact absurd (h2'.subset (by simp)) hc
      | cons₂ _ h2' => rfl

theorem pair_sublist_of_pairwise_lt :
    ∀ (l : List (DimStat K)), l.Pairwise (fun a b => a.dimension < b.dimension) →
      ∀ x y : DimStat K, x ∈ l → y ∈ l → y.dimension < x.dimension → List.Sublist [y, x] l := by
  intro l
  induction l with
  | nil =>
    intro _ x y hx
    exact absurd hx (List.not_mem_nil x)
  | cons c t ih =>
    intro hpw x y hx hy hlt
    rcases List.pairwise_cons.mp hpw with ⟨hcall, hpwt⟩
    rcases List.mem_cons.mp hy with rfl | hyt
    · rcases List.mem_cons.mp hx with rfl | hxt
      · exact absurd hlt (lt_irrefl _)
      · exact List.Sublist.cons₂ y (List.singleton_sublist.mpr hxt)
    · rcases List.mem_cons.mp hx with rfl | hxt
      · exact absurd (hcall y hyt) (by omega)
      · exact List.Sublist.cons c (ih hpwt x y hxt hyt hlt)

theorem dimensionStatsAll_pairwise (tt : List K → List K → K × K)
    (embeddings : List (List K)) (labels : List (String × String))
    (identifiers : List String) :
    (dimensionStatsAll tt embeddings labels identifiers).Pairwise
      (fun a b => a.dimension < b.dimension) := by
  unfold dimensionStatsAll
  exact List.Pairwise.map _ (fun a b h => h) (List.pairwise_lt_range _)

theorem performTTest_nonneg (tt : List K → List K → K × K)
    (htt0 : ∀ g1 g2, 0 ≤ (tt g1 g2).1) (g1 g2 : List K) :
    0 ≤ (performTTest tt g1 g2).1 := by
  unfold performTTest
  split
  · exact zero_le_one
  · exact htt0 g1 g2

theorem scoreFold_range (ps : List (K × K)) (h0 : ∀ q ∈ ps, 0 ≤ q.1) :
    0 ≤ (scoreFold ps).1 ∧ (scoreFold ps).1 ≤ 1 := by
  rcases scoreFold_go (K := K) (1, 0) ps with ⟨_, heq⟩ | ⟨hlt, _, hmem, _⟩
  · unfold scoreFold
    rw [heq]
    exact ⟨zero_le_one, le_refl 1⟩
  · constructor
    · rcases List.mem_map.mp hmem with ⟨q, hq, hfst⟩
      rw [show scoreFold ps = List.foldl scoreStep (1, 0) ps from rfl, ← hfst]
      exact h0 q hq
    · exact le_of_lt hlt

/-- C2: with a valid t-test oracle (p-values in [0, 1]), D ≥ 1 dimensions, at
least 2 labeled groups each with at least 2 members, and positive topN, the
Ranker returns exactly min(topN, D) DimensionStat entries, all p-values in
[0, 1], sorted non-decreasing by p-value with ties keeping ascending original
dimension order (stable sort), and selectedDimensions is exactly those entries'
dimension indices in the same order. -/
theorem rank_shape_sorted (tt : List K → List K → K × K) (embeddings : List (List K))
    (labels : List (String × String)) (identifiers : List String) (topN : ℕ)
    (htt : ∀ g1 g2, 0 ≤ (tt g1 g2).1 ∧ (tt g1 g2).1 ≤ 1)
    (hD : 1 ≤ embeddings.headI.length)
    (hg : 2 ≤ (groupsOf labels identifiers).length)
    (hmem2 : ∀ g ∈ groupsOf labels identifiers, 2 ≤ g.2.length)
    (htop : 1 ≤ topN) :
    selectDiscriminativeDimensions tt embeddings labels identifiers topN =
      Except.ok ((rankedStats tt embeddings labels identifiers topN).map DimStat.dimension,
        rankedStats tt embeddings labels identifiers topN) ∧
    (rankedStats tt embeddings labels identifiers topN).length =
      min topN embeddings.headI.length ∧
    (∀ s ∈ rankedStats tt embeddings labels identifiers topN,
      0 ≤ s.pValue ∧ s.pValue ≤ 1) ∧
    (rankedStats tt embeddings labels identifiers topN).Pairwise
      (fun a b => a.pValue ≤ b.pValue) ∧
    (∀ p q, ∀ hp : p < (rankedStats tt embeddings labels identifiers topN).length,
      ∀ hq : q < (rankedStats tt embeddings labels identifiers topN).length, p < q →
      ((rankedStats tt embeddings labels identifiers topN).get ⟨p, hp⟩).pValue =
        ((rankedStats tt embeddings labels identifiers topN).get ⟨q, hq⟩).pValue →
      ((rankedStats tt embeddings labels identifiers topN).get ⟨p, hp⟩).dimension <
        ((rankedStats tt embeddings labels identifiers topN).get ⟨q, hq⟩).dimension) := by
  have hok : selectDiscriminativeDimensions tt embeddings labels identifiers topN =
      Except.ok ((rankedStats tt embeddings labels identifiers topN).map DimStat.dimension,
        rankedStats tt embeddings labels identifiers topN) := by
    unfold selectDiscriminativeDimensions
    rw [if_neg (by omega)]
    rfl
  set stats := dimensionStatsAll tt embeddings labels identifiers with hstats
  set sorted := stats.mergeSort statLE with hsorted_def
  have hperm : sorted.Perm stats := List.mergeSort_perm stats statLE
  have hpw : stats.Pairwise (fun a b => a.dimension < b.dimension) :=
    dimensionStatsAll_pairwise tt embeddings labels identifiers
  have hsorted : sorted.Pairwise (fun a b => statLE a b = true) :=
    List.sorted_mergeSort statLE_trans statLE_total stats
  have hnd_stats : stats.Nodup := by
    apply hpw.imp
    intro a b h hab
    rw [hab] at h
    exact lt_irrefl _ h
  have hnd : sorted.Nodup := hperm.nodup_iff.mpr hnd_stats
  have hdim_ne : ∀ x ∈ stats, ∀ y ∈ stats, x ≠ y → x.dimension ≠ y.dimension := by
    have hsym : Symmetric (fun a b : DimStat K => a.dimension ≠ b.dimension) :=
      fun a b h => h.symm
    exact fun x hx y hy hxy =>
      (hpw.imp (fun h => Nat.ne_of_lt h)).forall hsym hx hy hxy
  refine ⟨hok, ?_, ?_, ?_, ?_⟩
  · unfold rankedStats
    rw [List.length_take, List.length_mergeSort]
    unfold dimensionStatsAll
    rw [List.length_map, List.length_range]
  · intro s hs
    have hs' : s ∈ stats := hperm.subset (List.mem_of_mem_take hs)
    rcases List.mem_map.mp hs' with ⟨dim, _, rfl⟩
    have hq0 : ∀ q ∈ pairResults tt embeddings (groupsOf labels identifiers) dim,
        0 ≤ q.1 := by
      intro q hq
      rcases pairResults_mem_shape tt embeddings (groupsOf labels identifiers) dim q hq with
        ⟨g1, g2, rfl⟩
      exact performTTest_nonneg tt (fun g1 g2 => (htt g1 g2).1) g1 g2
    exact scoreFold_range _ hq0
  · exact List.Pairwise.sublist (List.take_sublist _ _)
      (hsorted.imp (fun h => by simpa [statLE, decide_eq_true_eq] using h))
  · intro p q hp hq hpq heq
    have hlen_take : (rankedStats tt embeddings labels identifiers topN).length =
        min topN sorted.length := by
      unfold rankedStats
      rw [List.length_take]
    have hp' : p < sorted.length := by
      rw [hlen_take] at hp
      omega
    have hq' : q < sorted.length := by
      rw [hlen_take] at hq
      omega
    have hxp : (rankedStats tt embeddings labels identifiers topN).get ⟨p, hp⟩ =
        sorted.get ⟨p, hp'⟩ := by
      simp only [List.get_eq_getElem]
      exact List.getElem_take sorted
    have hxq : (rankedStats tt embeddings labels identifiers topN).get ⟨q, hq⟩ =
        sorted.get ⟨q, hq'⟩ := by
      simp only [List.get_eq_getElem]
      exact List.getElem_take sorted
    rw [hxp, hxq] at heq ⊢
    set x := sorted.get ⟨p, hp'⟩ with hx_def
    set y := sorted.get ⟨q, hq'⟩ with hy_def
    have hx_mem : x ∈ stats := hperm.subset (List.getElem_mem hp')
    have hy_mem : y ∈ stats := hperm.subset (List.getElem_mem hq')
    have hxy : x ≠ y := by
      intro hcon
      have := List.Nodup.get_inj_iff hnd (i := ⟨p, hp'⟩) (j := ⟨q, hq'⟩)
      simp only [List.get_eq_getElem] at this
      have hpq' := this.mp hcon
      rw [Fin.mk.injEq] at hpq'
      omega
    have hdne : x.dimension ≠ y.dimension := hdim_ne x hx_mem y hy_mem hxy
    by_contra hcon
    have hylt : y.dimension < x.dimension := by omega
    have hle : statLE y x = true := by
      simp only [statLE, decide_eq_true_eq]
      rw [heq]
    have hsub1 : List.Sublist [y, x] stats :=
      pair_sublist_of_pairwise_lt stats hpw x y hx_mem hy_mem hylt
    have hsub2 : List.Sublist [y, x] sorted :=
      List.mergeSort_stable_pair statLE_trans statLE_total hle hsub1
    have hsub3 : List.Sublist [x, y] sorted := get_pair_sublist sorted p q hp' hq' hpq
    exact hxy (eq_of_pair_sublists hnd hsub3 hsub2)

/-- C2 witness: a 4×2 embedding matrix, two labeled groups of two rows each,
topN = 1, and a concrete t-test oracle with p-value 1/2. -/
theorem rank_shape_sorted_witness :
    selectDiscriminativeDimensions (fun _ _ => ((1 : ℚ) / 2, 0))
        [[1, 2], [5, 6], [9, 10], [13, 14]]
        [("a", "X"), ("b", "X"), ("c", "Y"), ("d", "Y")] ["a", "b", "c", "d"] 1 =
      Except.ok ((rankedStats (fun _ _ => ((1 : ℚ) / 2, 0))
          [[1, 2], [5, 6], [9, 10], [13, 14]]
          [("a", "X"), ("b", "X"), ("c", "Y"), ("d", "Y")] ["a", "b", "c", "d"] 1).map
            DimStat.dimension,
        rankedStats (fun _ _ => ((1 : ℚ) / 2, 0)) [[1, 2], [5, 6], [9, 10], [13, 14]]
          [("a", "X"), ("b", "X"), ("c", "Y"), ("d", "Y")] ["a", "b", "c", "d"] 1) ∧
    (rankedStats (fun _ _ => ((1 : ℚ) / 2, 0)) [[1, 2], [5, 6], [9, 10], [13, 14]]
        [("a", "X"), ("b", "X"), ("c", "Y"), ("d", "Y")] ["a", "b", "c", "d"] 1).length =
      1 := by
  have h := rank_shape_sorted (fun _ _ => ((1 : ℚ) / 2, 0))
    [[1, 2], [5, 6], [9, 10], [13, 14]]
    [("a", "X"), ("b", "X"), ("c", "Y"), ("d", "Y")] ["a", "b", "c", "d"] 1
    (fun _ _ => ⟨by norm_num, by norm_num⟩) (by decide) (by decide) (by decide) (by decide)
  exact ⟨h.1, by simpa using h.2.1⟩

theorem addToGroups_keys (gs : List (String × List ℕ)) (lab : String) (i : ℕ) :
    (addToGroups gs lab i).map Prod.fst =
      if gs.any (fun p => p.1 == lab) then gs.map Prod.fst
      else gs.map Prod.fst ++ [lab] := by
  unfold addToGroups
  by_cases h : gs.any (fun p => p.1 == lab)
  · rw [if_pos h, if_pos h, List.map_map]
    apply List.map_congr_left
    intro p _
    show (if p.1 == lab then (p.1, p.2 ++ [i]) else p).1 = p.1
    split
    · rfl
    · rfl
  · rw [if_neg h, if_neg h, List.map_append]
    rfl

theorem addToGroups_keys_toFinset (gs : List (String × List ℕ)) (lab : String) (i : ℕ) :
    ((addToGroups gs lab i).map Prod.fst).toFinset =
      insert lab (gs.map Prod.fst).toFinset := by
  rw [addToGroups_keys]
  by_cases h : gs.any (fun p => p.1 == lab)
  · rw [if_pos h]
    rcases List.any_eq_true.mp h with ⟨p, hp, hpe⟩
    have : lab ∈ gs.map Prod.fst :=
      List.mem_map.mpr ⟨p, hp, by simpa using hpe⟩
    rw [Finset.insert_eq_self.mpr (List.mem_toFinset.mpr this)]
  · rw [if_neg h, List.toFinset_append]
    ext x
    simp [or_comm]

theorem addToGroups_keys_nodup (gs : List (String × List ℕ)) (lab : String) (i : ℕ)
    (hnd : (gs.map Prod.fst).Nodup) : ((addToGroups gs lab i).map Prod.fst).Nodup := by
  rw [addToGroups_keys]
  by_cases h : gs.any (fun p => p.1 == lab)
  · rw [if_pos h]
    exact hnd
  · rw [if_neg h]
    have hlab : lab ∉ gs.map Prod.fst := by
      intro hmem
      rcases List.mem_map.mp hmem with ⟨p, hp, hpe⟩
      exact h (List.any_eq_true.mpr ⟨p, hp, by simp [hpe]⟩)
    simp [List.nodup_append, hnd, hlab]

theorem groupsFold_keys (labels : List (String × String)) :
    ∀ (l : List (ℕ × String)) (gs : List (String × List ℕ)),
      (((l.foldl (fun gs p =>
          match labelOf labels p.2 with
          | some lab => addToGroups gs lab p.1
          | none => gs) gs).map Prod.fst).toFinset =
        (gs.map Prod.fst).toFinset ∪
          (l.filterMap (fun p => labelOf labels p.2)).toFinset) ∧
      ((gs.map Prod.fst).Nodup →
        ((l.foldl (fun gs p =>
          match labelOf labels p.2 with
          | some lab => addToGroups gs lab p.1
          | none => gs) gs).map Prod.fst).Nodup) := by
  intro l
  induction l with
  | nil =>
    intro gs
    simp
  | cons p t ih =>
    intro gs
    rw [List.foldl_cons, List.filterMap_cons]
    cases hl : labelOf labels p.2 with
    | none =>
      simpa using ih gs
    | some lab =>
      constructor
      · rw [(ih (addToGroups gs lab p.1)).1, addToGroups_keys_toFinset]
        rw [List.toFinset_cons]
        rw [Finset.insert_union, Finset.union_insert]
      · intro hnd
        exact (ih (addToGroups gs lab p.1)).2 (addToGroups_keys_nodup gs lab p.1 hnd)

theorem enumFrom_filterMap_snd {β : Type} (g : String → Option β) :
    ∀ (n : ℕ) (l : List String),
      (List.enumFrom n l).filterMap (fun p => g p.2) = l.filterMap g := by
  intro n l
  induction l generalizing n with
  | nil => rfl
  | cons a t ih =>
    rw [List.enumFrom_cons, List.filterMap_cons, List.filterMap_cons]
    cases g a with
    | none => exact ih (n + 1)
    | some b => rw [ih (n + 1)]

theorem groupsOf_length (labels : List (String × String)) (identifiers : List String) :
    (groupsOf labels identifiers).length = distinctIdentifiedNonEmpty labels identifiers := by
  have h := groupsFold_keys labels identifiers.enum []
  have hnd : ((groupsOf labels identifiers).map Prod.fst).Nodup := h.2 (by simp)
  have hfin : ((groupsOf labels identifiers).map Prod.fst).toFinset =
      (identifiers.filterMap (labelOf labels)).toFinset := by
    unfold groupsOf
    rw [h.1]
    rw [show identifiers.enum = List.enumFrom 0 identifiers from rfl,
      enumFrom_filterMap_snd (labelOf labels) 0 identifiers]
    simp
  calc (groupsOf labels identifiers).length
      = ((groupsOf labels identifiers).map Prod.fst).length := by rw [List.length_map]
    _ = ((groupsOf labels identifiers).map Prod.fst).toFinset.card :=
        (List.toFinset_card_of_nodup hnd).symm
    _ = (identifiers.filterMap (labelOf labels)).toFinset.card := by rw [hfin]
    _ = distinctIdentifiedNonEmpty labels identifiers := List.card_toFinset _

theorem labelOf_eq_some {labels : List (String × String)} {id v : String}
    (h : labelOf labels id = some v) : lookupLabel labels id = some v := by
  unfold labelOf at h
  cases hl : lookupLabel labels id with
  | none =>
    rw [hl] at h
    exact absurd h (by simp)
  | some l =>
    rw [hl] at h
    have h' : (if (l == "") = true then none else some l) = some v := h
    by_cases he : (l == "") = true
    · rw [if_pos he] at h'
      exact absurd h' (by simp)
    · rw [if_neg he] at h'
      exact h'

/-- C8 (amended): with fewer than 2 distinct label values in the label map the
Ranker fails with the ValidationError "Need at least 2 labeled groups for
statistical analysis"; the same happens whenever fewer than 2 distinct
non-empty label values are attached to identified rows; with 2 or more distinct
non-empty label values among the identified rows the validation passes and the
Ranker runs. -/
theorem rank_validation_gate (tt : List K → List K → K × K) (embeddings : List (List K))
    (labels : List (String × String)) (identifiers : List String) (topN : ℕ) :
    ((labels.map Prod.snd).dedup.length < 2 →
      selectDiscriminativeDimensions tt embeddings labels identifiers topN =
        Except.error "Need at least 2 labeled groups for statistical analysis") ∧
    (distinctIdentifiedNonEmpty labels identifiers < 2 →
      selectDiscriminativeDimensions tt embeddings labels identifiers topN =
        Except.error "Need at least 2 labeled groups for statistical analysis") ∧
    (2 ≤ distinctIdentifiedNonEmpty labels identifiers →
      ∃ out, selectDiscriminativeDimensions tt embeddings labels identifiers topN =
        Except.ok out) := by
  have hlen := groupsOf_length labels identifiers
  have second : distinctIdentifiedNonEmpty labels identifiers < 2 →
      selectDiscriminativeDimensions tt embeddings labels identifiers topN =
        Except.error "Need at least 2 labeled groups for statistical analysis" := by
    intro h
    unfold selectDiscriminativeDimensions
    rw [if_pos (by omega)]
  refine ⟨?_, second, ?_⟩
  · intro h
    apply second
    have hsub : (identifiers.filterMap (labelOf labels)).toFinset ⊆
        (labels.map Prod.snd).toFinset := by
      intro x hx
      rcases List.mem_filterMap.mp (List.mem_toFinset.mp hx) with ⟨id, _, hid⟩
      have hlk := labelOf_eq_some hid
      unfold lookupLabel at hlk
      rcases Option.map_eq_some'.mp hlk with ⟨pr, hfind, hsnd⟩
      exact List.mem_toFinset.mpr
        (List.mem_map.mpr ⟨pr, List.mem_of_find?_eq_some hfind, hsnd⟩)
    have hcard := Finset.card_le_card hsub
    rw [List.card_toFinset, List.card_toFinset] at hcard
    unfold distinctIdentifiedNonEmpty
    omega
  · intro h
    unfold selectDiscriminativeDimensions
    rw [if_neg (by omega)]
    exact ⟨_, rfl⟩

/-- C8 counterexample: the labels map a ↦ "" and b ↦ "X" has 2 distinct label
values among the identified rows a, b, yet the Ranker rejects the input,
because the code's falsy check `if (label)` treats the empty-string label as
unlabeled. -/
theorem rank_validation_gate_cex :
    distinctIdentifiedValues [("a", ""), ("b", "X")] ["a", "b"] = 2 ∧
    selectDiscriminativeDimensions (fun _ _ => ((1 : ℚ), 0)) [[1], [2]]
        [("a", ""), ("b", "X")] ["a", "b"] 1 =
      Except.error "Need at least 2 labeled groups for statistical analysis" := by
  constructor
  · decide
  · decide

/-- C8 witness: two distinct non-empty labels among the identified rows make
the validation pass. -/
theorem rank_validation_gate_witness :
    ∃ out, selectDiscriminativeDimensions (fun _ _ => ((1 : ℚ), 0)) [[1], [2]]
        [("a", "X"), ("b", "Y")] ["a", "b"] 1 = Except.ok out :=
  (rank_validation_gate (fun _ _ => ((1 : ℚ), 0)) [[1], [2]] [("a", "X"), ("b", "Y")]
    ["a", "b"] 1).2.2 (by decide)

end ClusteringApp
